import Mathlib

/-!
Shallow embedding of the BlueBannerBot repository (RAG documentation assistant):
the query service in `main.py`, the crawlers in `scraper-universal.py` and
`scraper.py`, and the ingestion loops in `ingester-universal.py` and
`ingest_to_pinecone.py`.  External services (chat model, embedding model,
vector index) are modelled as oracles returning `Except`-valued results; the
pure policy logic (history compaction, context assembly, prompt order, crawl
frontier management, chunk-id construction, upsert batching) is translated
directly from the source.
-/

/-! ### Character-level string primitives mirroring Python operators -/

/-- `needle` occurs at the head of `hay` (character-list prefix test). -/
def charsLeads : List Char → List Char → Bool
  | [], _ => true
  | _ :: _, [] => false
  | a :: as, b :: bs => a == b && charsLeads as bs

/-- `needle` occurs as a contiguous run somewhere in the character list. -/
def charsHasSub (needle : List Char) : List Char → Bool
  | [] => needle.isEmpty
  | c :: rest => charsLeads needle (c :: rest) || charsHasSub needle rest

/-- Python `needle in s` substring containment. -/
def containsSubstr (needle s : String) : Bool :=
  charsHasSub needle.toList s.toList

/-- Python `s.startswith(pre)`. -/
def pyStartsWith (s pre : String) : Bool :=
  charsLeads pre.toList s.toList

/-- Python `s.endswith(suf)`. -/
def pyEndsWith (s suf : String) : Bool :=
  charsLeads suf.toList.reverse s.toList.reverse

/-! ### Data model of `main.py`: conversation turns and HTTP responses -/

/-- A chat message dictionary from `main.py`: `{"role": ..., "content": ...}`. -/
structure Turn where
  role : String
  content : String
deriving DecidableEq

/-- Outcome of a FastAPI handler: a JSON body or an `HTTPException`. -/
inductive Response where
  | ok (body : String)
  | httpError (status : Nat) (detail : String)
deriving DecidableEq

/-- The uniform failure raised by both handlers in `main.py`. -/
def internalError : Response :=
  Response.httpError 500 "An internal server error occurred."

/-- `"\n".join(f"{role}: {content}" ...)` from `summarize_history` in `main.py`. -/
def conversationText (history : List Turn) : String :=
  String.intercalate "\n" (history.map fun msg => msg.role ++ ": " ++ msg.content)

/-- The summarization prompt built by `summarize_history` in `main.py`. -/
def summaryPrompt (history : List Turn) : String :=
  "\n        Please provide a concise summary of the following conversation history.\n        Do not add any conversational text like \x22Here is a summary\x22.\n        The summary should be objective and capture the key topics discussed.\n        \n        ---\n        Conversation:\n        " ++ conversationText history ++ "\n        "

/-- The system persona instruction of `ask_question` in `main.py`. -/
def systemPrompt : String :=
  "\n        You are a helpful robotics competition technical assistant called Blue Banner Bot. \n        Answer the user\x27s question based on the provided chat history and the retrieved context documents.\n        Be concise and clear in your explanation. If the context doesn\x27t contain the answer,\n        say that you couldn\x27t find the information in the provided documents.\n        "

/-- External services used by the handlers, with fallible results. -/
structure AskOracle where
  chat : List Turn → Except String String
  embed : String → Except String (List Int)
  sparseEncode : String → Except String (List (Nat × Int))
  queryIndex : List Int → List (Nat × Int) → Nat → Except String (List String)

/-- `summarize_history` in `main.py`: one chat-completion call on the
flattened history, with the returned content stripped. -/
def summarizeHistoryFn (o : AskOracle) (history : List Turn) : Except String String :=
  (o.chat [⟨"user", summaryPrompt history⟩]).map String.trim

/-- The `/summarize` endpoint: the summary on success, a uniform 500 otherwise. -/
def summarizeEndpoint (o : AskOracle) (history : List Turn) : Response :=
  match summarizeHistoryFn o history with
  | .ok s => Response.ok s
  | .error _ => internalError

/-- The summary message `ask_question` substitutes for the long history. -/
def summaryTurn (summary : String) : Turn :=
  ⟨"system", "Summary of conversation so far: " ++ summary⟩

/-- Python `request.history[-4:]`: the retained tail of the history. -/
def lastFour (history : List Turn) : List Turn :=
  history.drop (history.length - 4)

/-- `"\n---\n".join(context_chunks)` from `ask_question`. -/
def joinedContext (contextChunks : List String) : String :=
  String.intercalate "\n---\n" contextChunks

/-- The retrieved-context block: the joined match texts, or the placeholder
when the joined string is empty (`if not context_string` in `main.py`). -/
def assembleContext (contextChunks : List String) : String :=
  if joinedContext contextChunks = "" then "No relevant documents found."
  else joinedContext contextChunks

/-- The message sequence `ask_question` assembles for the final chat call:
persona instruction, context block, history turns, then the question. -/
def askMessages (question : String) (history : List Turn) (contextChunks : List String) :
    List Turn :=
  ⟨"system", systemPrompt⟩ ::
    ⟨"system", "Retrieved Context:\n" ++ assembleContext contextChunks⟩ ::
      (history ++ [⟨"user", question⟩])

/-- One external call issued by `ask_question`, recorded in order. -/
inductive ExtCall where
  | summarizeCall
  | embedCall (input : List String)
  | sparseCall (query : String)
  | queryCall (topK : Nat)
  | chatCall (messages : List Turn)
deriving DecidableEq

/-- Steps of `ask_question` after history compaction: dense embedding, sparse
encoding, hybrid index query, prompt assembly, final chat call.  Returns the
response together with the trace of external calls issued. -/
def askAfterCompaction (o : AskOracle) (question : String) (history : List Turn)
    (tr : List ExtCall) : Response × List ExtCall :=
  match o.embed question with
  | .error _ => (internalError, tr ++ [.embedCall [question]])
  | .ok dense =>
    match o.sparseEncode question with
    | .error _ => (internalError, tr ++ [.embedCall [question], .sparseCall question])
    | .ok sparse =>
      match o.queryIndex dense sparse 5 with
      | .error _ =>
          (internalError, tr ++ [.embedCall [question], .sparseCall question, .queryCall 5])
      | .ok texts =>
        match o.chat (askMessages question history texts) with
        | .error _ =>
            (internalError,
             tr ++ [.embedCall [question], .sparseCall question, .queryCall 5,
                    .chatCall (askMessages question history texts)])
        | .ok ans =>
            (Response.ok ans,
             tr ++ [.embedCall [question], .sparseCall question, .queryCall 5,
                    .chatCall (askMessages question history texts)])

/-- The `/ask` endpoint `ask_question` of `main.py`: when the history has more
than 10 turns it is first summarized and replaced by the summary turn plus the
last 4 turns; any failure yields the uniform internal error. -/
def askQuestion (o : AskOracle) (question : String) (history : List Turn) :
    Response × List ExtCall :=
  if 10 < history.length then
    match summarizeHistoryFn o history with
    | .error _ => (internalError, [.summarizeCall])
    | .ok summary =>
        askAfterCompaction o question (summaryTurn summary :: lastFour history) [.summarizeCall]
  else
    askAfterCompaction o question history []

/-- The messages given to the final chat-completion call, read off the trace. -/
def chatPayload : List ExtCall → Option (List Turn)
  | [] => none
  | .chatCall m :: _ => some m
  | _ :: rest => chatPayload rest

/-! ### The crawler of `scraper-universal.py` (`crawl_site`) -/

/-- The binary extensions excluded by the link filter in `crawl_site`. -/
def EXCLUDED_EXTS : List String := [".zip", ".pdf", ".png", ".jpg"]

/-- `"cdn-cgi/l/email-protection" in url` from `crawl_site`. -/
def emailProtected (url : String) : Bool :=
  containsSubstr "cdn-cgi/l/email-protection" url

/-- `any(ext in url for ext in [...])` from `crawl_site`: substring test. -/
def hasExcludedExt (url : String) : Bool :=
  EXCLUDED_EXTS.any fun ext => containsSubstr ext url

/-- The state-independent part of the enqueue condition in `crawl_site`. -/
def okURL (allowedDomain url : String) : Bool :=
  !emailProtected url && containsSubstr allowedDomain url && !hasExcludedExt url

/-- The link loop of `crawl_site`: each fragment-stripped absolute link is
added to the pending set when it survives the e-mail-protection `continue`,
contains the allowed domain, is in neither `visited_urls` nor `urls_to_visit`,
and contains none of the excluded extensions. -/
def enqueueLinks (allowedDomain : String) (visited : List String) :
    List String → List String → List String
  | pending, [] => pending
  | pending, l :: ls =>
    if emailProtected l then enqueueLinks allowedDomain visited pending ls
    else if containsSubstr allowedDomain l = true ∧ l ∉ visited ∧ l ∉ pending ∧
        hasExcludedExt l = false then
      enqueueLinks allowedDomain visited (pending ++ [l]) ls
    else enqueueLinks allowedDomain visited pending ls

/-- Crawl state of `crawl_site`: `visited_urls`, `urls_to_visit`, and the log
of URLs actually fetched, in order. -/
structure CrawlState where
  visited : List String
  pending : List String
  log : List String
deriving DecidableEq

/-- One iteration of the `while urls_to_visit` loop of `crawl_site`: pop a
pending URL, skip it when already visited, otherwise mark it visited, fetch
it, and enqueue the filtered links of the fetched page (`links u`). -/
def crawlStep (links : String → List String) (allowedDomain : String)
    (s : CrawlState) : CrawlState :=
  match s with
  | ⟨visited, [], log⟩ => ⟨visited, [], log⟩
  | ⟨visited, u :: rest, log⟩ =>
    if u ∈ visited then ⟨visited, rest, log⟩
    else ⟨u :: visited, enqueueLinks allowedDomain (u :: visited) rest (links u), log ++ [u]⟩

/-- Initial crawl state: `urls_to_visit = {base_url}`, `visited_urls = set()`. -/
def crawlInit (seed : String) : CrawlState := ⟨[], [seed], []⟩

/-- The crawl state after `n` loop iterations of `crawl_site`. -/
def crawlAfter (links : String → List String) (allowedDomain seed : String)
    (n : Nat) : CrawlState :=
  (crawlStep links allowedDomain)^[n] (crawlInit seed)

/-- URLs the crawler can reach: the seed, plus any link of a reachable page
that passes the state-independent part of the enqueue filter. -/
inductive CrawlReach (links : String → List String) (allowedDomain seed : String) :
    String → Prop
  | seed : CrawlReach links allowedDomain seed seed
  | step {u v : String} : CrawlReach links allowedDomain seed u → v ∈ links u →
      okURL allowedDomain v = true → CrawlReach links allowedDomain seed v

/-! ### The crawler of `scraper.py` (`__main__` loop) -/

/-- The link filter of `find_doc_links` in `scraper.py`:
`full_url.startswith(base_domain) and not full_url.endswith(('.zip', '.pdf', '.jar'))`. -/
def legacyLinkOk (baseDomain url : String) : Bool :=
  pyStartsWith url baseDomain &&
    !(pyEndsWith url ".zip" || pyEndsWith url ".pdf" || pyEndsWith url ".jar")

/-- `find_doc_links` in `scraper.py`: filter the page links and collect them
into a set (modelled as deduplication). -/
def findDocLinks (baseDomain : String) (pageLinks : List String) : List String :=
  (pageLinks.filter (legacyLinkOk baseDomain)).dedup

/-- Crawl state of the `scraper.py` main loop: `visited_urls`, the
`urls_to_visit` deque, and the log of URLs actually fetched. -/
structure LegacyState where
  visited : List String
  pending : List String
  log : List String
deriving DecidableEq

/-- One iteration of the `while urls_to_visit` loop of `scraper.py`: pop from
the left of the deque, skip when visited, otherwise mark visited, fetch, and
append each found link that is not yet visited (pending is not checked). -/
def legacyStep (links : String → List String) (baseDomain : String)
    (s : LegacyState) : LegacyState :=
  match s with
  | ⟨visited, [], log⟩ => ⟨visited, [], log⟩
  | ⟨visited, u :: rest, log⟩ =>
    if u ∈ visited then ⟨visited, rest, log⟩
    else
      ⟨u :: visited,
       rest ++ (findDocLinks baseDomain (links u)).filter (fun l => decide (l ∉ u :: visited)),
       log ++ [u]⟩

/-- The `scraper.py` crawl state after `n` loop iterations. -/
def legacyCrawlAfter (links : String → List String) (baseDomain seed : String)
    (n : Nat) : LegacyState :=
  (legacyStep links baseDomain)^[n] ⟨[], [seed], []⟩

/-! ### Ingestion: `ingester-universal.py` -/

/-- A record upserted to the index: id, embedding vector, metadata
`{"text": chunk, "source": filename}`. -/
structure PineRecord where
  id : String
  values : List Int
  metaText : String
  metaSource : String
deriving DecidableEq

/-- `f"{input_directory}-{filename}-{i}"` from `ingester-universal.py`. -/
def mkVectorId (dir fname : String) (i : Nat) : String :=
  dir ++ "-" ++ fname ++ "-" ++ toString i

/-- The per-file chunk loop of `ingester-universal.py`: embed each chunk
(failed embeddings are dropped), accumulate records, and flush the batch when
it reaches `batch_size` or at the last chunk with a non-empty batch.  Returns
the flushed batches in order and the buffer remaining after the loop. -/
def processChunks (embed : String → Option (List Int)) (dir fname : String)
    (batchSize : Nat) : Nat → List String → List PineRecord →
    List (List PineRecord) × List PineRecord
  | _, [], buf => ([], buf)
  | i, c :: rest, buf =>
    let buf1 := match embed c with
      | some v => buf ++ [⟨mkVectorId dir fname i, v, c, fname⟩]
      | none => buf
    if batchSize ≤ buf1.length ∨ (rest = [] ∧ buf1 ≠ []) then
      let r := processChunks embed dir fname batchSize (i + 1) rest []
      (buf1 :: r.1, r.2)
    else processChunks embed dir fname batchSize (i + 1) rest buf1

/-- `batch_size = 100` in `ingester-universal.py`. -/
def BATCH_SIZE : Nat := 100

/-- The whole per-file loop of `ingester-universal.py`, from an empty buffer. -/
def processFile (embed : String → Option (List Int)) (dir fname : String)
    (chunks : List String) : List (List PineRecord) × List PineRecord :=
  processChunks embed dir fname BATCH_SIZE 0 chunks []

/-- The sequence of records the loop accumulates: one record per successfully
embedded chunk, with the chunk position `i` in the id. -/
def chunkRecords (embed : String → Option (List Int)) (dir fname : String) :
    Nat → List String → List PineRecord
  | _, [] => []
  | i, c :: rest =>
    (match embed c with
     | some v => [⟨mkVectorId dir fname i, v, c, fname⟩]
     | none => []) ++ chunkRecords embed dir fname (i + 1) rest

/-- Positions of chunks whose embedding call succeeds, counted from `i`. -/
def successIndices (embed : String → Option (List Int)) :
    Nat → List String → List Nat
  | _, [] => []
  | i, c :: rest =>
    (if (embed c).isSome then [i] else []) ++ successIndices embed (i + 1) rest

/-- All upserted record ids for one file in `ingester-universal.py`. -/
def fileRecordIds (embed : String → Option (List Int)) (dir fname : String)
    (chunks : List String) : List String :=
  (processFile embed dir fname chunks).1.flatten.map PineRecord.id

/-! ### Ingestion: `ingest_to_pinecone.py` -/

/-- A record upserted by `ingest_to_pinecone.py`: metadata carries only the text. -/
structure LegacyRecord where
  id : String
  values : List Int
  metaText : String
deriving DecidableEq

/-- `INPUT_DIRECTORY = "scraped_data_javadoc"` in `ingest_to_pinecone.py`. -/
def INPUT_DIRECTORY : String := "scraped_data_javadoc"

/-- The per-file chunk loop of `ingest_to_pinecone.py`: the id is
`f"{filename}-{chunk_id_counter}"`, and `chunk_id_counter` advances only when
the embedding call succeeds. -/
def legacyChunkRecords (embed : String → Option (List Int)) (fname : String) :
    Nat → List String → List LegacyRecord
  | _, [] => []
  | counter, c :: rest =>
    match embed c with
    | some v =>
        ⟨fname ++ "-" ++ toString counter, v, c⟩ ::
          legacyChunkRecords embed fname (counter + 1) rest
    | none => legacyChunkRecords embed fname counter rest

/-- The single flush of `ingest_to_pinecone.py`: one upsert after the loop,
guarded by `if vectors_to_upsert:`. -/
def legacyFlush (records : List LegacyRecord) : List (List LegacyRecord) :=
  if records = [] then [] else [records]

/-! ### Spec-side reading of the enqueue filter (for the refinement claim) -/

/-- Characters after the `://` scheme separator of a URL. -/
def dropScheme : List Char → List Char
  | [] => []
  | ':' :: '/' :: '/' :: rest => rest
  | _ :: rest => dropScheme rest

/-- The host (netloc) component of an absolute URL. -/
def urlHost (url : String) : String :=
  ⟨(dropScheme url.toList).takeWhile (fun c => c != '/')⟩

/-- The path component of an absolute URL. -/
def urlPath (url : String) : String :=
  ⟨(dropScheme url.toList).dropWhile (fun c => c != '/')⟩

/-- Stated from the claim wording, to compare with the code: enqueue iff the
URL domain matches the allowed domain, the URL is in neither the visited set
nor the pending frontier, and the URL path does not end in one of the
excluded binary extensions. -/
def specEnqueueCond (allowedDomain : String) (visited pending : List String)
    (url : String) : Prop :=
  urlHost url = allowedDomain ∧ url ∉ visited ∧ url ∉ pending ∧
    ∀ ext ∈ EXCLUDED_EXTS, pyEndsWith (urlPath url) ext = false

/-! ### Concrete inputs used in witness evaluations -/

/-- A concrete oracle on which every external service succeeds. -/
def demoOracle : AskOracle :=
  ⟨fun _ => .ok "S", fun _ => .ok [], fun _ => .ok [], fun _ _ _ => .ok ["doc text"]⟩

/-- A concrete oracle whose index query returns zero matches. -/
def demoOracleEmpty : AskOracle :=
  ⟨fun _ => .ok "S", fun _ => .ok [], fun _ => .ok [], fun _ _ _ => .ok []⟩

/-- An 11-turn history, crossing the compaction threshold. -/
def demoHistory : List Turn := (List.range 11).map fun i => ⟨"user", toString i⟩

/-- A link graph with a shared sink: a links to b and c, b links to c. -/
def cyclicLinks : String → List String :=
  fun u => if u = "a" then ["b", "c"] else if u = "b" then ["c"] else []

/-! ### Lemmas about the `crawl_site` link filter -/

theorem okURL_iff (allowedDomain url : String) :
    okURL allowedDomain url = true ↔
      emailProtected url = false ∧ containsSubstr allowedDomain url = true ∧
        hasExcludedExt url = false := by
  simp [okURL, Bool.and_eq_true, Bool.not_eq_true', and_assoc]

theorem mem_enqueueLinks (allowedDomain : String) (visited : List String) :
    ∀ (ls pending : List String) (v : String),
      v ∈ enqueueLinks allowedDomain visited pending ls ↔
        v ∈ pending ∨ (v ∈ ls ∧ okURL allowedDomain v = true ∧ v ∉ visited ∧ v ∉ pending) := by
  intro ls
  induction ls with
  | nil => simp [enqueueLinks]
  | cons l ls ih =>
    intro pending v
    rw [enqueueLinks]
    by_cases hMail : emailProtected l = true
    · rw [if_pos hMail, ih]
      constructor
      · rintro (hp | ⟨hmem, hC⟩)
        · exact Or.inl hp
        · exact Or.inr ⟨List.mem_cons_of_mem _ hmem, hC⟩
      · rintro (hp | ⟨hmem, hok, hnv, hnp⟩)
        · exact Or.inl hp
        · rcases List.mem_cons.mp hmem with rfl | hmem2
          · rw [okURL_iff] at hok
            exact absurd hMail (by simp [hok.1])
          · exact Or.inr ⟨hmem2, hok, hnv, hnp⟩
    · rw [if_neg hMail]
      have hMail' : emailProtected l = false := by
        cases h : emailProtected l
        · rfl
        · exact absurd h hMail
      by_cases hC : containsSubstr allowedDomain l = true ∧ l ∉ visited ∧ l ∉ pending ∧
          hasExcludedExt l = false
      · rw [if_pos hC, ih]
        obtain ⟨hsub, hlv, hlp, hext⟩ := hC
        constructor
        · rintro (hp | ⟨hmem, hok, hnv, hnp⟩)
          · rcases List.mem_append.mp hp with hp1 | hp2
            · exact Or.inl hp1
            · have : v = l := by simpa using hp2
              subst this
              exact Or.inr ⟨List.mem_cons_self _ _,
                (okURL_iff _ _).mpr ⟨hMail', hsub, hext⟩, hlv, hlp⟩
          · have hvl : v ≠ l := by
              intro heq; subst heq
              exact hnp (List.mem_append.mpr (Or.inr (by simp)))
            exact Or.inr ⟨List.mem_cons_of_mem _ hmem, hok, hnv,
              fun hvp => hnp (List.mem_append.mpr (Or.inl hvp))⟩
        · rintro (hp | ⟨hmem, hok, hnv, hnp⟩)
          · exact Or.inl (List.mem_append.mpr (Or.inl hp))
          · rcases List.mem_cons.mp hmem with rfl | hmem2
            · exact Or.inl (List.mem_append.mpr (Or.inr (by simp)))
            · by_cases hvl : v = l
              · subst hvl
                exact Or.inl (List.mem_append.mpr (Or.inr (by simp)))
              · refine Or.inr ⟨hmem2, hok, hnv, ?_⟩
                intro hvp
                rcases List.mem_append.mp hvp with h1 | h2
                · exact hnp h1
                · exact hvl (by simpa using h2)
      · rw [if_neg hC, ih]
        constructor
        · rintro (hp | ⟨hmem, hC2⟩)
          · exact Or.inl hp
          · exact Or.inr ⟨List.mem_cons_of_mem _ hmem, hC2⟩
        · rintro (hp | ⟨hmem, hok, hnv, hnp⟩)
          · exact Or.inl hp
          · rcases List.mem_cons.mp hmem with rfl | hmem2
            · rw [okURL_iff] at hok
              exact absurd ⟨hok.2.1, hnv, hnp, hok.2.2⟩ hC
            · exact Or.inr ⟨hmem2, hok, hnv, hnp⟩

theorem enqueueLinks_nodup (allowedDomain : String) (visited : List String) :
    ∀ (ls pending : List String), pending.Nodup →
      (enqueueLinks allowedDomain visited pending ls).Nodup := by
  intro ls
  induction ls with
  | nil => intro pending hp; simpa [enqueueLinks] using hp
  | cons l ls ih =>
    intro pending hp
    rw [enqueueLinks]
    by_cases hMail : emailProtected l = true
    · rw [if_pos hMail]; exact ih pending hp
    · rw [if_neg hMail]
      by_cases hC : containsSubstr allowedDomain l = true ∧ l ∉ visited ∧ l ∉ pending ∧
          hasExcludedExt l = false
      · rw [if_pos hC]
        refine ih (pending ++ [l]) ?_
        rw [List.nodup_append]
        exact ⟨hp, List.nodup_singleton l,
          fun x hx hxl => hC.2.2.1 ((List.mem_singleton.mp hxl) ▸ hx)⟩
      · rw [if_neg hC]; exact ih pending hp

theorem enqueueLinks_not_visited (allowedDomain : String) (visited : List String)
    (ls pending : List String) (hp : ∀ v ∈ pending, v ∉ visited) :
    ∀ v ∈ enqueueLinks allowedDomain visited pending ls, v ∉ visited := by
  intro v hv
  rcases (mem_enqueueLinks allowedDomain visited ls pending v).mp hv with h1 | h2
  · exact hp v h1
  · exact h2.2.2.1

theorem enqueueLinks_length (allowedDomain : String) (visited : List String) :
    ∀ (ls pending : List String),
      (enqueueLinks allowedDomain visited pending ls).length ≤ pending.length + ls.length := by
  intro ls
  induction ls with
  | nil => intro pending; simp [enqueueLinks]
  | cons l ls ih =>
    intro pending
    rw [enqueueLinks]
    by_cases hMail : emailProtected l = true
    · rw [if_pos hMail]
      have := ih pending
      simp only [List.length_cons]
      omega
    · rw [if_neg hMail]
      by_cases hC : containsSubstr allowedDomain l = true ∧ l ∉ visited ∧ l ∉ pending ∧
          hasExcludedExt l = false
      · rw [if_pos hC]
        have h2 := ih (pending ++ [l])
        have h3 : (pending ++ [l]).length = pending.length + 1 := by simp
        rw [h3] at h2
        simp only [List.length_cons]
        omega
      · rw [if_neg hC]
        have := ih pending
        simp only [List.length_cons]
        omega

/-! ### Frontier invariants and termination for `crawl_site` -/

/-- Loop invariant of `crawl_site` relative to a finite URL universe `U`. -/
def CrawlInv (links : String → List String) (allowedDomain seed : String)
    (U : Finset String) (s : CrawlState) : Prop :=
  s.visited.Nodup ∧ s.pending.Nodup ∧ (∀ v ∈ s.pending, v ∉ s.visited) ∧
  s.log.Nodup ∧ (∀ v, v ∈ s.log ↔ v ∈ s.visited) ∧
  (∀ v ∈ s.visited, v ∈ U) ∧ (∀ v ∈ s.pending, v ∈ U) ∧
  (∀ u ∈ s.visited, ∀ v ∈ links u, okURL allowedDomain v = true →
     v ∈ s.visited ∨ v ∈ s.pending) ∧
  (∀ v ∈ s.visited, CrawlReach links allowedDomain seed v) ∧
  (∀ v ∈ s.pending, CrawlReach links allowedDomain seed v) ∧
  (seed ∈ s.visited ∨ seed ∈ s.pending)

theorem crawlStep_inv (links : String → List String) (allowedDomain seed : String)
    (U : Finset String)
    (hU : ∀ u ∈ U, ∀ v ∈ links u, okURL allowedDomain v = true → v ∈ U)
    (s : CrawlState) (hs : CrawlInv links allowedDomain seed U s) :
    CrawlInv links allowedDomain seed U (crawlStep links allowedDomain s) := by
  obtain ⟨visited, pending, log⟩ := s
  obtain ⟨h1, h2, h3, h4, h5, h6, h7, h8, h9, h10, h11⟩ := hs
  cases pending with
  | nil => exact ⟨h1, h2, h3, h4, h5, h6, h7, h8, h9, h10, h11⟩
  | cons u rest =>
    simp only [crawlStep]
    by_cases hu : u ∈ visited
    · rw [if_pos hu]
      refine ⟨h1, (List.nodup_cons.mp h2).2, fun v hv => h3 v (List.mem_cons_of_mem _ hv),
        h4, h5, h6, fun v hv => h7 v (List.mem_cons_of_mem _ hv), ?_, h9,
        fun v hv => h10 v (List.mem_cons_of_mem _ hv), ?_⟩
      · intro w hw v hv hok
        rcases h8 w hw v hv hok with hvis | hpend
        · exact Or.inl hvis
        · rcases List.mem_cons.mp hpend with rfl | hr
          · exact Or.inl hu
          · exact Or.inr hr
      · rcases h11 with hs1 | hs2
        · exact Or.inl hs1
        · rcases List.mem_cons.mp hs2 with rfl | hr
          · exact Or.inl hu
          · exact Or.inr hr
    · rw [if_neg hu]
      have huU : u ∈ U := h7 u (List.mem_cons_self _ _)
      have hreachu : CrawlReach links allowedDomain seed u :=
        h10 u (List.mem_cons_self _ _)
      have hrestDisj : ∀ v ∈ rest, v ∉ u :: visited := by
        intro v hv
        rw [List.mem_cons]
        rintro (rfl | hvv)
        · exact (List.nodup_cons.mp h2).1 hv
        · exact h3 v (List.mem_cons_of_mem _ hv) hvv
      have hmemE := mem_enqueueLinks allowedDomain (u :: visited) (links u) rest
      refine ⟨List.nodup_cons.mpr ⟨hu, h1⟩,
        enqueueLinks_nodup allowedDomain (u :: visited) (links u) rest
          (List.nodup_cons.mp h2).2,
        enqueueLinks_not_visited allowedDomain (u :: visited) (links u) rest hrestDisj,
        ?_, ?_, ?_, ?_, ?_, ?_, ?_, ?_⟩
      · rw [List.nodup_append]
        refine ⟨h4, List.nodup_singleton u, fun x hx hxu => ?_⟩
        rw [List.mem_singleton.mp hxu] at hx
        exact hu ((h5 u).mp hx)
      · intro v
        rw [List.mem_append, List.mem_singleton, List.mem_cons, h5 v, or_comm]
      · intro v hv
        rcases List.mem_cons.mp hv with rfl | hvv
        · exact huU
        · exact h6 v hvv
      · intro v hv
        rcases (hmemE v).mp hv with hr | ⟨hl, hok, _, _⟩
        · exact h7 v (List.mem_cons_of_mem _ hr)
        · exact hU u huU v hl hok
      · intro w hw v hv hok
        rcases List.mem_cons.mp hw with hwu | hwv
        · rw [hwu] at hv
          by_cases hvv : v ∈ u :: visited
          · exact Or.inl hvv
          · by_cases hvr : v ∈ rest
            · exact Or.inr ((hmemE v).mpr (Or.inl hvr))
            · exact Or.inr ((hmemE v).mpr (Or.inr ⟨hv, hok, hvv, hvr⟩))
        · rcases h8 w hwv v hv hok with hvis | hpend
          · exact Or.inl (List.mem_cons_of_mem _ hvis)
          · rcases List.mem_cons.mp hpend with rfl | hr
            · exact Or.inl (List.mem_cons_self _ _)
            · exact Or.inr ((hmemE v).mpr (Or.inl hr))
      · intro v hv
        rcases List.mem_cons.mp hv with rfl | hvv
        · exact hreachu
        · exact h9 v hvv
      · intro v hv
        rcases (hmemE v).mp hv with hr | ⟨hl, hok, _, _⟩
        · exact h10 v (List.mem_cons_of_mem _ hr)
        · exact CrawlReach.step hreachu hl hok
      · rcases h11 with hs1 | hs2
        · exact Or.inl (List.mem_cons_of_mem _ hs1)
        · rcases List.mem_cons.mp hs2 with rfl | hr
          · exact Or.inl (List.mem_cons_self _ _)
          · exact Or.inr ((hmemE seed).mpr (Or.inl hr))

/-- Termination measure: remaining universe capacity weighted by the largest
per-page link count, plus the pending length. -/
def crawlMeasure (links : String → List String) (U : Finset String)
    (s : CrawlState) : Nat :=
  (U.card - s.visited.length) * (1 + U.sup fun u => (links u).length) + s.pending.length

theorem crawlStep_measure (links : String → List String) (allowedDomain : String)
    (U : Finset String) (s : CrawlState) (hne : s.pending ≠ [])
    (hnd : s.visited.Nodup) (hvU : ∀ v ∈ s.visited, v ∈ U)
    (hpU : ∀ v ∈ s.pending, v ∈ U) :
    crawlMeasure links U (crawlStep links allowedDomain s) < crawlMeasure links U s := by
  obtain ⟨visited, pending, log⟩ := s
  cases pending with
  | nil => exact absurd rfl hne
  | cons u rest =>
    simp only [crawlStep]
    by_cases hu : u ∈ visited
    · rw [if_pos hu]
      simp only [crawlMeasure, List.length_cons]
      omega
    · rw [if_neg hu]
      have huU : u ∈ U := hpU u (List.mem_cons_self _ _)
      have hsub : (u :: visited).toFinset ⊆ U := by
        intro x hx
        rcases List.mem_cons.mp (List.mem_toFinset.mp hx) with rfl | hxx
        · exact huU
        · exact hvU x hxx
      have hnd2 : (u :: visited).Nodup := List.nodup_cons.mpr ⟨hu, hnd⟩
      have hcard : visited.length + 1 ≤ U.card := by
        have := Finset.card_le_card hsub
        rw [List.toFinset_card_of_nodup hnd2] at this
        simpa using this
      have hlinks : (links u).length ≤ U.sup fun w => (links w).length :=
        Finset.le_sup (f := fun w => (links w).length) huU
      have hpend := enqueueLinks_length allowedDomain (u :: visited) (links u) rest
      simp only [crawlMeasure, List.length_cons]
      have hrw : U.card - visited.length = (U.card - (visited.length + 1)) + 1 := by
        omega
      rw [hrw, Nat.add_mul, one_mul]
      have hK : (links u).length + 1 ≤ 1 + U.sup fun w => (links w).length := by omega
      generalize (U.card - (visited.length + 1)) * (1 + U.sup fun w => (links w).length) = X
      omega

theorem crawl_reaches_done (links : String → List String) (allowedDomain seed : String)
    (U : Finset String)
    (hU : ∀ u ∈ U, ∀ v ∈ links u, okURL allowedDomain v = true → v ∈ U) :
    ∀ (N : Nat) (s : CrawlState), CrawlInv links allowedDomain seed U s →
      crawlMeasure links U s ≤ N →
      ∃ k, ((crawlStep links allowedDomain)^[k] s).pending = [] ∧
        CrawlInv links allowedDomain seed U ((crawlStep links allowedDomain)^[k] s) := by
  intro N
  induction N with
  | zero =>
    intro s hs hm
    refine ⟨0, ?_, hs⟩
    have : s.pending.length = 0 := by
      simp only [crawlMeasure] at hm
      omega
    exact List.length_eq_zero.mp this
  | succ N ih =>
    intro s hs hm
    by_cases hp : s.pending = []
    · exact ⟨0, hp, hs⟩
    · have hdec := crawlStep_measure links allowedDomain U s hp hs.1 hs.2.2.2.2.2.1
        hs.2.2.2.2.2.2.1
      obtain ⟨k, hk1, hk2⟩ := ih (crawlStep links allowedDomain s)
        (crawlStep_inv links allowedDomain seed U hU s hs) (by omega)
      refine ⟨k + 1, ?_, ?_⟩
      · rw [Function.iterate_succ_apply]; exact hk1
      · rw [Function.iterate_succ_apply]; exact hk2

theorem crawl_done_stable (links : String → List String) (allowedDomain : String)
    (s : CrawlState) (hp : s.pending = []) : crawlStep links allowedDomain s = s := by
  obtain ⟨visited, pending, log⟩ := s
  cases hp
  rfl

theorem crawl_done_visited (links : String → List String) (allowedDomain seed : String)
    (U : Finset String) (s : CrawlState)
    (hs : CrawlInv links allowedDomain seed U s) (hp : s.pending = []) :
    ∀ v, v ∈ s.visited ↔ CrawlReach links allowedDomain seed v := by
  obtain ⟨_, _, _, _, _, _, _, h8, h9, _, h11⟩ := hs
  intro v
  constructor
  · exact h9 v
  · intro hr
    induction hr with
    | seed =>
      rcases h11 with hs1 | hs2
      · exact hs1
      · rw [hp] at hs2; cases hs2
    | step hru hl hok ihu =>
      rcases h8 _ ihu _ hl hok with hvis | hpend
      · exact hvis
      · rw [hp] at hpend; cases hpend

/-! ### `scraper.py`: fetch-once despite the weaker frontier discipline -/

/-- Invariant of the `scraper.py` loop: the log lists each fetched URL once
and coincides with the visited set. -/
def LegacyInv (s : LegacyState) : Prop :=
  s.visited.Nodup ∧ s.log.Nodup ∧ (∀ v, v ∈ s.log ↔ v ∈ s.visited)

theorem legacyStep_inv (links : String → List String) (baseDomain : String)
    (s : LegacyState) (hs : LegacyInv s) : LegacyInv (legacyStep links baseDomain s) := by
  obtain ⟨visited, pending, log⟩ := s
  obtain ⟨h1, h2, h3⟩ := hs
  cases pending with
  | nil => exact ⟨h1, h2, h3⟩
  | cons u rest =>
    simp only [legacyStep]
    by_cases hu : u ∈ visited
    · rw [if_pos hu]; exact ⟨h1, h2, h3⟩
    · rw [if_neg hu]
      refine ⟨List.nodup_cons.mpr ⟨hu, h1⟩, ?_, ?_⟩
      · rw [List.nodup_append]
        refine ⟨h2, List.nodup_singleton u, fun x hx hxu => ?_⟩
        rw [List.mem_singleton.mp hxu] at hx
        exact hu ((h3 u).mp hx)
      · intro v
        rw [List.mem_append, List.mem_singleton, List.mem_cons, h3 v, or_comm]

theorem legacyCrawlAfter_inv (links : String → List String) (baseDomain seed : String)
    (n : Nat) : LegacyInv (legacyCrawlAfter links baseDomain seed n) := by
  induction n with
  | zero =>
    refine ⟨List.nodup_nil, List.nodup_nil, fun v => ?_⟩
    simp [legacyCrawlAfter]
  | succ n ih =>
    rw [legacyCrawlAfter, Function.iterate_succ_apply']
    exact legacyStep_inv links baseDomain _ ih

/-- Frontier invariant of `crawl_site` that needs no universe: the whole
`CrawlInv` without the `U`-boundedness, reachability and closure parts. -/
theorem crawlAfter_frontier (links : String → List String) (allowedDomain seed : String)
    (n : Nat) :
    (crawlAfter links allowedDomain seed n).visited.Nodup ∧
    (crawlAfter links allowedDomain seed n).pending.Nodup ∧
    (∀ v ∈ (crawlAfter links allowedDomain seed n).pending,
       v ∉ (crawlAfter links allowedDomain seed n).visited) ∧
    (crawlAfter links allowedDomain seed n).log.Nodup ∧
    (∀ v, v ∈ (crawlAfter links allowedDomain seed n).log ↔
       v ∈ (crawlAfter links allowedDomain seed n).visited) := by
  induction n with
  | zero => refine ⟨List.nodup_nil, List.nodup_singleton seed, ?_, List.nodup_nil, ?_⟩ <;>
      simp [crawlAfter, crawlInit]
  | succ n ih =>
    rw [crawlAfter, Function.iterate_succ_apply']
    obtain ⟨h1, h2, h3, h4, h5⟩ := ih
    rw [crawlAfter] at h1 h2 h3 h4 h5
    set t := (crawlStep links allowedDomain)^[n] (crawlInit seed) with ht
    obtain ⟨visited, pending, log⟩ := t
    cases pending with
    | nil => exact ⟨h1, h2, h3, h4, h5⟩
    | cons u rest =>
      simp only [crawlStep]
      by_cases hu : u ∈ visited
      · rw [if_pos hu]
        exact ⟨h1, (List.nodup_cons.mp h2).2,
          fun v hv => h3 v (List.mem_cons_of_mem _ hv), h4, h5⟩
      · rw [if_neg hu]
        have hrestDisj : ∀ v ∈ rest, v ∉ u :: visited := by
          intro v hv
          rw [List.mem_cons]
          rintro (rfl | hvv)
          · exact (List.nodup_cons.mp h2).1 hv
          · exact h3 v (List.mem_cons_of_mem _ hv) hvv
        refine ⟨List.nodup_cons.mpr ⟨hu, h1⟩,
          enqueueLinks_nodup allowedDomain (u :: visited) (links u) rest
            (List.nodup_cons.mp h2).2,
          enqueueLinks_not_visited allowedDomain (u :: visited) (links u) rest hrestDisj,
          ?_, ?_⟩
        · rw [List.nodup_append]
          refine ⟨h4, List.nodup_singleton u, fun x hx hxu => ?_⟩
          rw [List.mem_singleton.mp hxu] at hx
          exact hu ((h5 u).mp hx)
        · intro v
          rw [List.mem_append, List.mem_singleton, List.mem_cons, h5 v, or_comm]

/-! ### Ingestion lemmas -/

theorem processChunks_flushes (embed : String → Option (List Int)) (dir fname : String)
    (batchSize : Nat) :
    ∀ (chunks : List String) (i : Nat) (buf : List PineRecord), (chunks = [] → buf = []) →
      (processChunks embed dir fname batchSize i chunks buf).2 = [] ∧
      (processChunks embed dir fname batchSize i chunks buf).1.flatten =
        buf ++ chunkRecords embed dir fname i chunks := by
  intro chunks
  induction chunks with
  | nil =>
    intro i buf h
    simp [processChunks, chunkRecords, h rfl]
  | cons c rest ih =>
    intro i buf h
    rw [processChunks]
    cases hem : embed c with
    | none =>
      simp only [hem]
      by_cases hcond : batchSize ≤ buf.length ∨ (rest = [] ∧ buf ≠ [])
      · rw [if_pos hcond]
        obtain ⟨ha, hb⟩ := ih (i + 1) [] (fun _ => rfl)
        refine ⟨ha, ?_⟩
        rw [List.flatten_cons, hb]
        simp [chunkRecords, hem]
      · rw [if_neg hcond]
        have hbuf : rest = [] → buf = [] := by
          intro hrest
          rcases not_or.mp hcond with ⟨_, h2⟩
          by_cases hb2 : buf = []
          · exact hb2
          · exact absurd ⟨hrest, hb2⟩ h2
        obtain ⟨ha, hb⟩ := ih (i + 1) buf hbuf
        refine ⟨ha, ?_⟩
        rw [hb]
        simp [chunkRecords, hem]
    | some v =>
      simp only [hem]
      by_cases hcond :
          batchSize ≤ (buf ++ [(⟨mkVectorId dir fname i, v, c, fname⟩ : PineRecord)]).length ∨
          (rest = [] ∧ buf ++ [(⟨mkVectorId dir fname i, v, c, fname⟩ : PineRecord)] ≠ [])
      · rw [if_pos hcond]
        obtain ⟨ha, hb⟩ := ih (i + 1) [] (fun _ => rfl)
        refine ⟨ha, ?_⟩
        rw [List.flatten_cons, hb]
        simp [chunkRecords, hem]
      · rw [if_neg hcond]
        have hbuf : rest = [] →
            buf ++ [(⟨mkVectorId dir fname i, v, c, fname⟩ : PineRecord)] = [] := by
          intro hrest
          rcases not_or.mp hcond with ⟨_, h2⟩
          by_cases hb2 : buf ++ [(⟨mkVectorId dir fname i, v, c, fname⟩ : PineRecord)] = []
          · exact hb2
          · exact absurd ⟨hrest, hb2⟩ h2
        obtain ⟨ha, hb⟩ :=
          ih (i + 1) (buf ++ [(⟨mkVectorId dir fname i, v, c, fname⟩ : PineRecord)]) hbuf
        refine ⟨ha, ?_⟩
        rw [hb]
        simp [chunkRecords, hem]

theorem chunkRecords_ids (embed : String → Option (List Int)) (dir fname : String) :
    ∀ (chunks : List String) (i : Nat),
      (chunkRecords embed dir fname i chunks).map PineRecord.id =
        (successIndices embed i chunks).map (mkVectorId dir fname) := by
  intro chunks
  induction chunks with
  | nil => intro i; simp [chunkRecords, successIndices]
  | cons c rest ih =>
    intro i
    cases hem : embed c with
    | none => simp [chunkRecords, successIndices, hem, ih (i + 1)]
    | some v => simp [chunkRecords, successIndices, hem, ih (i + 1)]

theorem successIndices_congr (e1 e2 : String → Option (List Int))
    (h : ∀ c, (e1 c).isSome = (e2 c).isSome) :
    ∀ (chunks : List String) (i : Nat),
      successIndices e1 i chunks = successIndices e2 i chunks := by
  intro chunks
  induction chunks with
  | nil => intro i; rfl
  | cons c rest ih =>
    intro i
    simp only [successIndices, h c, ih (i + 1)]

/-! ### Lemmas about the `/ask` pipeline -/

theorem askAfterCompaction_trace (o : AskOracle) (question : String) (history : List Turn)
    (tr : List ExtCall) (dense : List Int) (sparse : List (Nat × Int)) (texts : List String)
    (hd : o.embed question = .ok dense) (hsp : o.sparseEncode question = .ok sparse)
    (hq : o.queryIndex dense sparse 5 = .ok texts) :
    (askAfterCompaction o question history tr).2 =
      tr ++ [.embedCall [question], .sparseCall question, .queryCall 5,
             .chatCall (askMessages question history texts)] := by
  rw [askAfterCompaction]
  split
  next a heq => rw [hd] at heq; simp at heq
  next d2 heq =>
    rw [hd] at heq
    injection heq with hdd
    subst hdd
    split
    next a heq2 => rw [hsp] at heq2; simp at heq2
    next s2 heq2 =>
      rw [hsp] at heq2
      injection heq2 with hss
      subst hss
      split
      next a heq3 => rw [hq] at heq3; simp at heq3
      next t2 heq3 =>
        rw [hq] at heq3
        injection heq3 with htt
        subst htt
        cases o.chat (askMessages question history texts) <;> rfl

theorem askAfterCompaction_count (o : AskOracle) (question : String) (history : List Turn)
    (tr : List ExtCall) :
    ((askAfterCompaction o question history tr).2).count ExtCall.summarizeCall =
      tr.count ExtCall.summarizeCall := by
  rw [askAfterCompaction]
  split
  · simp [List.count_append, List.count_cons]
  · split
    · simp [List.count_append, List.count_cons]
    · split
      · simp [List.count_append, List.count_cons]
      · split
        · simp [List.count_append, List.count_cons]
        · simp [List.count_append, List.count_cons]

theorem chatPayload_append_calls (tr : List ExtCall)
    (htr : ∀ m, ExtCall.chatCall m ∉ tr) (question : String) (msgs : List Turn) :
    chatPayload (tr ++ [.embedCall [question], .sparseCall question, .queryCall 5,
        .chatCall msgs]) = some msgs := by
  induction tr with
  | nil => rfl
  | cons c tr ih =>
    have hc : ∀ m, ExtCall.chatCall m ≠ c := fun m heq =>
      htr m (heq ▸ List.mem_cons_self c tr)
    have step : chatPayload ((c :: tr) ++ [.embedCall [question], .sparseCall question,
        .queryCall 5, .chatCall msgs]) =
        chatPayload (tr ++ [.embedCall [question], .sparseCall question,
          .queryCall 5, .chatCall msgs]) := by
      cases c with
      | summarizeCall => rfl
      | embedCall a => rfl
      | sparseCall a => rfl
      | queryCall a => rfl
      | chatCall m => exact absurd rfl (hc m)
    rw [step]
    exact ih fun m hm => htr m (List.mem_cons_of_mem _ hm)

/-! ### Claim theorems -/

/-- C1: for an `/ask` request whose history is longer than 10 turns the
service issues exactly one summarization call and sends the chat model the
summary turn followed by the last 4 original turns (5 post-compaction turns);
for a history of at most 10 turns no summarization call occurs and the
history is passed through unchanged. -/
theorem ask_history_compaction (o : AskOracle) (question : String) (history : List Turn) :
    ((askQuestion o question history).2.count ExtCall.summarizeCall
        = if 10 < history.length then 1 else 0) ∧
    (10 < history.length →
      ∀ (raw : String) (dense : List Int) (sparse : List (Nat × Int)) (texts : List String),
        o.chat [⟨"user", summaryPrompt history⟩] = .ok raw →
        o.embed question = .ok dense → o.sparseEncode question = .ok sparse →
        o.queryIndex dense sparse 5 = .ok texts →
        chatPayload (askQuestion o question history).2 =
          some (askMessages question (summaryTurn raw.trim :: lastFour history) texts) ∧
        (summaryTurn raw.trim :: lastFour history).length = 5) ∧
    (history.length ≤ 10 →
      ∀ (dense : List Int) (sparse : List (Nat × Int)) (texts : List String),
        o.embed question = .ok dense → o.sparseEncode question = .ok sparse →
        o.queryIndex dense sparse 5 = .ok texts →
        chatPayload (askQuestion o question history).2 =
          some (askMessages question history texts)) := by
  refine ⟨?_, ?_, ?_⟩
  · rw [askQuestion]
    by_cases h10 : 10 < history.length
    · rw [if_pos h10, if_pos h10]
      split
      · rfl
      · rw [askAfterCompaction_count]; rfl
    · rw [if_neg h10, if_neg h10]
      rw [askAfterCompaction_count]; rfl
  · intro h10 raw dense sparse texts hraw hd hsp hq
    have hsum : summarizeHistoryFn o history = .ok raw.trim := by
      rw [summarizeHistoryFn, hraw]; rfl
    constructor
    · rw [askQuestion, if_pos h10]
      simp only [hsum]
      rw [askAfterCompaction_trace o question (summaryTurn raw.trim :: lastFour history)
        [ExtCall.summarizeCall] dense sparse texts hd hsp hq]
      refine chatPayload_append_calls [ExtCall.summarizeCall] ?_ question _
      intro m hm
      simp at hm
    · have h4 : (lastFour history).length = 4 := by
        rw [lastFour, List.length_drop]
        omega
      simp [h4]
  · intro hle dense sparse texts hd hsp hq
    rw [askQuestion, if_neg (not_lt.mpr hle)]
    rw [askAfterCompaction_trace o question history [] dense sparse texts hd hsp hq]
    refine chatPayload_append_calls [] ?_ question _
    intro m hm
    exact List.not_mem_nil _ hm

/-- Witness for C1 at a concrete 11-turn history and an all-success oracle. -/
theorem ask_history_compaction_witness :
    chatPayload (askQuestion demoOracle "q" demoHistory).2 =
      some (askMessages "q" (summaryTurn ("S".trim) :: lastFour demoHistory) ["doc text"]) ∧
    (summaryTurn ("S".trim) :: lastFour demoHistory).length = 5 :=
  (ask_history_compaction demoOracle "q" demoHistory).2.1 (by decide) "S" [] [] ["doc text"]
    rfl rfl rfl rfl

/-- C2: when the index returns zero matches, the retrieved-context block sent
to the chat model equals the literal placeholder string and is never empty. -/
theorem ask_no_matches_placeholder (o : AskOracle) (question : String) (history : List Turn)
    (raw : String) (dense : List Int) (sparse : List (Nat × Int))
    (hsum : 10 < history.length → o.chat [⟨"user", summaryPrompt history⟩] = .ok raw)
    (hd : o.embed question = .ok dense) (hsp : o.sparseEncode question = .ok sparse)
    (hq : o.queryIndex dense sparse 5 = .ok []) :
    assembleContext [] = "No relevant documents found." ∧
    ("No relevant documents found." : String) ≠ "" ∧
    ∃ msgs, chatPayload (askQuestion o question history).2 = some msgs ∧
      msgs[1]? = some ⟨"system", "Retrieved Context:\n" ++ "No relevant documents found."⟩ := by
  refine ⟨rfl, by decide, ?_⟩
  by_cases h10 : 10 < history.length
  · have hsum2 : summarizeHistoryFn o history = .ok raw.trim := by
      rw [summarizeHistoryFn, hsum h10]; rfl
    refine ⟨askMessages question (summaryTurn raw.trim :: lastFour history) [], ?_, ?_⟩
    · rw [askQuestion, if_pos h10]
      simp only [hsum2]
      rw [askAfterCompaction_trace o question (summaryTurn raw.trim :: lastFour history)
        [ExtCall.summarizeCall] dense sparse [] hd hsp hq]
      refine chatPayload_append_calls [ExtCall.summarizeCall] ?_ question _
      intro m hm
      simp at hm
    · have hctx : assembleContext [] = "No relevant documents found." := rfl
      simp [askMessages, hctx]
  · refine ⟨askMessages question history [], ?_, ?_⟩
    · rw [askQuestion, if_neg h10]
      rw [askAfterCompaction_trace o question history [] dense sparse [] hd hsp hq]
      refine chatPayload_append_calls [] ?_ question _
      intro m hm
      exact List.not_mem_nil _ hm
    · have hctx : assembleContext [] = "No relevant documents found." := rfl
      simp [askMessages, hctx]

/-- Witness for C2 at a concrete request with an empty-result index. -/
theorem ask_no_matches_placeholder_witness :
    assembleContext [] = "No relevant documents found." ∧
    ("No relevant documents found." : String) ≠ "" ∧
    ∃ msgs, chatPayload (askQuestion demoOracleEmpty "q" []).2 = some msgs ∧
      msgs[1]? = some ⟨"system", "Retrieved Context:\n" ++ "No relevant documents found."⟩ :=
  ask_no_matches_placeholder demoOracleEmpty "q" [] "S" [] []
    (fun h => absurd h (by decide)) rfl rfl rfl

/-- C3: the message sequence sent to the chat model is exactly: the system
persona instruction, one system message wrapping the retrieved-context block,
the (possibly compacted) history turns in order, then the current question as
the final user turn. -/
theorem ask_message_order (o : AskOracle) (question : String) (history : List Turn)
    (raw : String) (dense : List Int) (sparse : List (Nat × Int)) (texts : List String)
    (hsum : 10 < history.length → o.chat [⟨"user", summaryPrompt history⟩] = .ok raw)
    (hd : o.embed question = .ok dense) (hsp : o.sparseEncode question = .ok sparse)
    (hq : o.queryIndex dense sparse 5 = .ok texts) :
    chatPayload (askQuestion o question history).2 =
      some (⟨"system", systemPrompt⟩ ::
        ⟨"system", "Retrieved Context:\n" ++ assembleContext texts⟩ ::
          ((if 10 < history.length then summaryTurn raw.trim :: lastFour history
            else history) ++ [⟨"user", question⟩])) := by
  by_cases h10 : 10 < history.length
  · have hsum2 : summarizeHistoryFn o history = .ok raw.trim := by
      rw [summarizeHistoryFn, hsum h10]; rfl
    rw [askQuestion, if_pos h10, if_pos h10]
    simp only [hsum2]
    rw [askAfterCompaction_trace o question (summaryTurn raw.trim :: lastFour history)
      [ExtCall.summarizeCall] dense sparse texts hd hsp hq]
    exact chatPayload_append_calls [ExtCall.summarizeCall]
      (fun m hm => by simp at hm) question _
  · rw [askQuestion, if_neg h10, if_neg h10]
    rw [askAfterCompaction_trace o question history [] dense sparse texts hd hsp hq]
    exact chatPayload_append_calls [] (fun m hm => List.not_mem_nil _ hm) question _

/-- Witness for C3 at an empty history and an all-success oracle. -/
theorem ask_message_order_witness :
    chatPayload (askQuestion demoOracle "q" []).2 =
      some (⟨"system", systemPrompt⟩ ::
        ⟨"system", "Retrieved Context:\n" ++ assembleContext ["doc text"]⟩ ::
          ((if 10 < ([] : List Turn).length then summaryTurn ("S".trim) :: lastFour []
            else ([] : List Turn)) ++ [⟨"user", "q"⟩])) :=
  ask_message_order demoOracle "q" [] "S" [] [] ["doc text"]
    (fun h => absurd h (by decide)) rfl rfl rfl

/-- C4 counterexample: `ingest_to_pinecone.py` builds each id from the
filename and a success counter only; for a one-chunk file it produces
`f.txt-0`, not the `{directory}-{filename}-{chunk_index}` string. -/
theorem legacy_id_format_counterexample :
    (legacyChunkRecords (fun _ => some []) "f.txt" 0 ["chunk text"]).map LegacyRecord.id =
      ["f.txt-0"] ∧
    ("f.txt-0" : String) ≠ mkVectorId INPUT_DIRECTORY "f.txt" 0 := by
  exact ⟨rfl, by decide⟩

/-- C4 (amended): in `ingester-universal.py` every upserted id is
`{directory}-{filename}-{i}` with `i` the chunk position in the file
(embedding failures skip positions), so re-ingesting the same file with
identical chunking parameters and the same embedding-success pattern produces
exactly the same ids; in `ingest_to_pinecone.py` the id is instead
`{filename}-{k}` with `k` a success counter and no directory component. -/
theorem ingest_universal_ids (embed : String → Option (List Int)) (dir fname : String)
    (chunks : List String) :
    fileRecordIds embed dir fname chunks =
      (successIndices embed 0 chunks).map (mkVectorId dir fname) ∧
    (∀ embed2 : String → Option (List Int),
       (∀ c, (embed c).isSome = (embed2 c).isSome) →
       fileRecordIds embed dir fname chunks = fileRecordIds embed2 dir fname chunks) := by
  have key : ∀ e : String → Option (List Int),
      fileRecordIds e dir fname chunks =
        (successIndices e 0 chunks).map (mkVectorId dir fname) := by
    intro e
    rw [fileRecordIds, processFile]
    rw [(processChunks_flushes e dir fname BATCH_SIZE chunks 0 [] (fun _ => rfl)).2]
    rw [List.nil_append]
    exact chunkRecords_ids e dir fname chunks 0
  refine ⟨key embed, fun embed2 h => ?_⟩
  rw [key embed, key embed2, successIndices_congr embed embed2 h chunks 0]

/-- Witness for the amended C4 idempotence: two embedding runs with the same
success pattern produce the same ids. -/
theorem ingest_universal_ids_witness :
    fileRecordIds (fun _ => some []) "d" "f.txt" ["x", "y"] =
      fileRecordIds (fun _ => some [1]) "d" "f.txt" ["x", "y"] :=
  (ingest_universal_ids (fun _ => some []) "d" "f.txt" ["x", "y"]).2
    (fun _ => some [1]) (fun _ => rfl)

/-- C5 counterexample: in the `scraper.py` loop on the link graph a→b,c and
b→c, after three iterations the URL c is both in the visited set and still
in the pending deque, so visited and pending are not disjoint. -/
theorem frontier_disjointness_counterexample :
    "c" ∈ (legacyCrawlAfter cyclicLinks "" "a" 3).visited ∧
    "c" ∈ (legacyCrawlAfter cyclicLinks "" "a" 3).pending := by
  decide

/-- C5 (amended): in `crawl_site` (scraper-universal.py) the invariant holds
throughout: the visited set and pending frontier are disjoint and the fetch
log lists each visited URL exactly once; in `scraper.py` the pending deque
may retain an already-visited URL, but the dequeue-time visited check still
guarantees that no URL is fetched twice. -/
theorem crawl_frontier_discipline :
    (∀ (links : String → List String) (allowedDomain seed : String) (n : Nat),
       (∀ v ∈ (crawlAfter links allowedDomain seed n).pending,
          v ∉ (crawlAfter links allowedDomain seed n).visited) ∧
       (crawlAfter links allowedDomain seed n).log.Nodup ∧
       (∀ v, v ∈ (crawlAfter links allowedDomain seed n).log ↔
          v ∈ (crawlAfter links allowedDomain seed n).visited)) ∧
    (∀ (links : String → List String) (baseDomain seed : String) (n : Nat),
       (legacyCrawlAfter links baseDomain seed n).log.Nodup ∧
       (∀ v, v ∈ (legacyCrawlAfter links baseDomain seed n).log ↔
          v ∈ (legacyCrawlAfter links baseDomain seed n).visited)) := by
  constructor
  · intro links allowedDomain seed n
    obtain ⟨h1, h2, h3, h4, h5⟩ := crawlAfter_frontier links allowedDomain seed n
    exact ⟨h3, h4, h5⟩
  · intro links baseDomain seed n
    obtain ⟨h1, h2, h3⟩ := legacyCrawlAfter_inv links baseDomain seed n
    exact ⟨h2, h3⟩

/-- C6: on a finite link graph — a finite URL universe containing the seed
and closed under the crawler-eligible links — `crawl_site` terminates: after
some number of iterations the frontier is empty and the state is a fixpoint,
the visited set is exactly the reachable eligible URLs, and the fetch log
lists each of them exactly once. -/
theorem crawl_terminates_and_visits_once (links : String → List String)
    (allowedDomain seed : String) (U : Finset String) (hseed : seed ∈ U)
    (hU : ∀ u ∈ U, ∀ v ∈ links u, okURL allowedDomain v = true → v ∈ U) :
    ∃ n, (crawlAfter links allowedDomain seed n).pending = [] ∧
      crawlStep links allowedDomain (crawlAfter links allowedDomain seed n) =
        crawlAfter links allowedDomain seed n ∧
      (∀ v, v ∈ (crawlAfter links allowedDomain seed n).visited ↔
         CrawlReach links allowedDomain seed v) ∧
      (crawlAfter links allowedDomain seed n).log.Nodup ∧
      (∀ v, v ∈ (crawlAfter links allowedDomain seed n).log ↔
         CrawlReach links allowedDomain seed v) := by
  have hinit : CrawlInv links allowedDomain seed U (crawlInit seed) := by
    refine ⟨List.nodup_nil, List.nodup_singleton seed, ?_, List.nodup_nil, ?_, ?_, ?_,
      ?_, ?_, ?_, ?_⟩
    · intro v hv
      simp [crawlInit]
    · intro v
      simp [crawlInit]
    · intro v hv
      simp [crawlInit] at hv
    · intro v hv
      have hv2 : v = seed := by simpa [crawlInit] using hv
      subst hv2
      exact hseed
    · intro u hu v hv hok
      simp [crawlInit] at hu
    · intro v hv
      simp [crawlInit] at hv
    · intro v hv
      have hv2 : v = seed := by simpa [crawlInit] using hv
      subst hv2
      exact CrawlReach.seed
    · exact Or.inr (by simp [crawlInit])
  obtain ⟨k, hk1, hk2⟩ := crawl_reaches_done links allowedDomain seed U hU
    (crawlMeasure links U (crawlInit seed)) (crawlInit seed) hinit (le_refl _)
  refine ⟨k, hk1, crawl_done_stable links allowedDomain _ hk1,
    crawl_done_visited links allowedDomain seed U _ hk2 hk1, hk2.2.2.2.1, ?_⟩
  intro v
  rw [crawlAfter, hk2.2.2.2.2.1 v]
  exact crawl_done_visited links allowedDomain seed U _ hk2 hk1 v

/-- Witness for C6 at a one-page graph with no links. -/
theorem crawl_terminates_and_visits_once_witness :
    ∃ n, (crawlAfter (fun _ => ([] : List String)) "" "s" n).pending = [] ∧
      crawlStep (fun _ => ([] : List String)) ""
          (crawlAfter (fun _ => ([] : List String)) "" "s" n) =
        crawlAfter (fun _ => ([] : List String)) "" "s" n ∧
      (∀ v, v ∈ (crawlAfter (fun _ => ([] : List String)) "" "s" n).visited ↔
         CrawlReach (fun _ => ([] : List String)) "" "s" v) ∧
      (crawlAfter (fun _ => ([] : List String)) "" "s" n).log.Nodup ∧
      (∀ v, v ∈ (crawlAfter (fun _ => ([] : List String)) "" "s" n).log ↔
         CrawlReach (fun _ => ([] : List String)) "" "s" v) :=
  crawl_terminates_and_visits_once (fun _ => []) "" "s" {"s"} (by simp)
    (fun u _ v hv _ => absurd hv (List.not_mem_nil v))

/-- C7 counterexample: `crawl_site` refuses the URL
`https://docs.limelightvision.io/file.zip.html` — whose domain equals the
allowed domain and whose path ends in `.html`, not in an excluded extension —
because `.zip` occurs as a substring of the URL. -/
theorem enqueue_condition_counterexample :
    enqueueLinks "docs.limelightvision.io" [] []
        ["https://docs.limelightvision.io/file.zip.html"] = [] ∧
    specEnqueueCond "docs.limelightvision.io" [] []
      "https://docs.limelightvision.io/file.zip.html" := by
  constructor
  · decide
  · unfold specEnqueueCond
    decide

/-- C7 (amended): a link is enqueued by `crawl_site` iff it survives the
e-mail-protection check, contains the allowed domain as a substring of the
whole URL, is in neither the visited set nor the pending frontier, and none
of the excluded extensions occurs as a substring of the whole URL — substring
containment, not domain equality or a path-suffix test. -/
theorem enqueue_condition_characterization (allowedDomain : String)
    (visited pending ls : List String) (v : String) :
    v ∈ enqueueLinks allowedDomain visited pending ls ↔
      v ∈ pending ∨ (v ∈ ls ∧ emailProtected v = false ∧
        containsSubstr allowedDomain v = true ∧ v ∉ visited ∧ v ∉ pending ∧
        hasExcludedExt v = false) := by
  rw [mem_enqueueLinks]
  constructor
  · rintro (hp | ⟨hl, hok, hnv, hnp⟩)
    · exact Or.inl hp
    · rw [okURL_iff] at hok
      exact Or.inr ⟨hl, hok.1, hok.2.1, hnv, hnp, hok.2.2⟩
  · rintro (hp | ⟨hl, hm, hsub, hnv, hnp, hext⟩)
    · exact Or.inl hp
    · exact Or.inr ⟨hl, (okURL_iff _ _).mpr ⟨hm, hsub, hext⟩, hnv, hnp⟩

/-- C8: every accumulated record is flushed before the run ends — the
`ingester-universal.py` per-file loop finishes with an empty buffer and its
flushed batches concatenate to exactly the accumulated records (including the
final partial batch), and the single guarded flush of `ingest_to_pinecone.py`
upserts exactly the accumulated records. -/
theorem ingestion_flushes_everything :
    (∀ (embed : String → Option (List Int)) (dir fname : String) (chunks : List String),
       (processFile embed dir fname chunks).2 = [] ∧
       (processFile embed dir fname chunks).1.flatten =
         chunkRecords embed dir fname 0 chunks) ∧
    (∀ records : List LegacyRecord, (legacyFlush records).flatten = records) := by
  constructor
  · intro embed dir fname chunks
    have h := processChunks_flushes embed dir fname BATCH_SIZE chunks 0 [] (fun _ => rfl)
    rw [processFile]
    exact ⟨h.1, by rw [h.2]; exact List.nil_append _⟩
  · intro records
    by_cases h : records = []
    · subst h; rfl
    · rw [legacyFlush, if_neg h]
      simp

/-- Helper for C9: every outcome of the post-compaction steps is either a
success or the uniform internal error. -/
theorem askAfterCompaction_result (o : AskOracle) (question : String) (history : List Turn)
    (tr : List ExtCall) :
    (askAfterCompaction o question history tr).1 = internalError ∨
      ∃ a, (askAfterCompaction o question history tr).1 = Response.ok a := by
  rw [askAfterCompaction]
  split
  · exact Or.inl rfl
  · split
    · exact Or.inl rfl
    · split
      · exact Or.inl rfl
      · split
        · exact Or.inl rfl
        · exact Or.inr ⟨_, rfl⟩

/-- C9: every `/ask` and `/summarize` outcome is either a success or the one
uniform 500 response with the generic detail message, so a failing embedding,
index query or chat completion is indistinguishable to the caller. -/
theorem uniform_internal_errors (o : AskOracle) (question : String)
    (history histSumm : List Turn) :
    ((askQuestion o question history).1 = internalError ∨
      ∃ a, (askQuestion o question history).1 = Response.ok a) ∧
    (summarizeEndpoint o histSumm = internalError ∨
      ∃ s, summarizeEndpoint o histSumm = Response.ok s) := by
  constructor
  · rw [askQuestion]
    by_cases h10 : 10 < history.length
    · rw [if_pos h10]
      split
      · exact Or.inl rfl
      · exact askAfterCompaction_result o question _ _
    · rw [if_neg h10]
      exact askAfterCompaction_result o question _ _
  · rw [summarizeEndpoint]
    split
    · exact Or.inr ⟨_, rfl⟩
    · exact Or.inl rfl

/-- C10: the placeholder is substituted exactly when the separator-joined
match texts form the empty string — which can happen with one empty-text
match — and otherwise the joined string is used verbatim: the substitution
condition is emptiness of the joined context string, not the match count. -/
theorem placeholder_on_empty_join :
    (∀ texts : List String, joinedContext texts = "" →
       assembleContext texts = "No relevant documents found.") ∧
    (∀ texts : List String, joinedContext texts ≠ "" →
       assembleContext texts = joinedContext texts) ∧
    joinedContext [""] = "" ∧ ([""] : List String).length = 1 := by
  refine ⟨?_, ?_, rfl, rfl⟩
  · intro texts h
    rw [assembleContext, if_pos h]
  · intro texts h
    rw [assembleContext, if_neg h]

/-- Witness for C10 at a single match with empty stored text. -/
theorem placeholder_on_empty_join_witness :
    assembleContext [""] = "No relevant documents found." :=
  placeholder_on_empty_join.1 [""] placeholder_on_empty_join.2.2.1
